import Mathlib

/-!
# CashMates core: Lean embedding and verification

Shallow embedding of the CashMates (roomiesplit) core:
`utils/money.py`, `services/ledger_service.py`, `services/settlement_service.py`
and the data model of `models/expense.py`.

Python `Decimal` values are modelled as rationals (`ℚ`); a value quantized to
exactly 2 fractional digits is one of the form `n / 100` with `n : ℤ`
(predicate `IsCents`). Member identifiers are strings, balance maps are
association lists with unique keys (Python dicts preserve insertion order and
have unique keys).
-/

namespace CashMates

/-! ## Definitions -/

/-- A decimal value with exactly 2 fractional digits (a whole number of cents),
the invariant of Python `Decimal` values produced by `to_decimal`. -/
def IsCents (q : ℚ) : Prop := ∃ n : ℤ, q = n / 100

/-- Round a rational to a whole number of cents using round-half-up
(ties away from zero), the semantics of
`Decimal.quantize(Decimal('0.01'), rounding=ROUND_HALF_UP)`. -/
def roundHalfUpCents (q : ℚ) : ℤ :=
  if q < 0 then -⌊-q * 100 + 1 / 2⌋ else ⌊q * 100 + 1 / 2⌋

/-- `to_decimal` / `round_money` from `utils/money.py` on a numeric input:
quantize to 2 decimal places with `ROUND_HALF_UP`. -/
def round_money (q : ℚ) : ℚ := (roundHalfUpCents q : ℚ) / 100

/-- The error raised when `Decimal(str(amount))` cannot parse its input
(`decimal.InvalidOperation` in the source; the design documents name it
`InvalidAmount`). -/
inductive MoneyError where
  | invalidAmount
  deriving DecidableEq

/-- Modelled from the spec: the numeric-string grammar accepted by Python's
`Decimal` constructor (the constructor itself is standard-library code, not
part of this repository). A plain decimal literal: optional sign, then digits
with an optional fractional part, at least one digit in total. Returns `none`
exactly when `Decimal(...)` would raise. -/
def parseUnsigned (cs : List Char) : Option ℚ :=
  let intPart := cs.takeWhile Char.isDigit
  let rest := cs.dropWhile Char.isDigit
  match rest with
  | [] =>
      if intPart = [] then none
      else some ((intPart.foldl (fun n c => 10 * n + (c.toNat - 48)) 0 : ℕ) : ℚ)
  | '.' :: frac =>
      if frac.all Char.isDigit ∧ (intPart ≠ [] ∨ frac ≠ []) then
        some (((intPart.foldl (fun n c => 10 * n + (c.toNat - 48)) 0 : ℕ) : ℚ) +
          ((frac.foldl (fun n c => 10 * n + (c.toNat - 48)) 0 : ℕ) : ℚ) / 10 ^ frac.length)
      else none
  | _ => none

/-- Modelled from the spec: sign handling of Python's `Decimal` string
constructor. -/
def parseNumber (s : String) : Option ℚ :=
  match s.data with
  | '-' :: rest => (parseUnsigned rest).map Neg.neg
  | '+' :: rest => parseUnsigned rest
  | cs => parseUnsigned cs

/-- `to_decimal` from `utils/money.py` on a string input:
`Decimal(str(amount)).quantize(Decimal('0.01'), rounding=ROUND_HALF_UP)`.
There is no exception handler in `to_decimal`, so a parse failure propagates
to the caller as an error; a parsed value is quantized and returned. -/
def to_decimal_of_string (s : String) : Except MoneyError ℚ :=
  match parseNumber s with
  | none => Except.error MoneyError.invalidAmount
  | some q => Except.ok (round_money q)

/-! ### Data model (`models/expense.py`) -/

structure Split where
  expense_id : String
  user_id : String
  share_type : String
  value : ℚ
  deriving DecidableEq

/-- `Split(...)` followed by `__post_init__` (`self.value = to_decimal(self.value)`). -/
def Split.make (expense_id user_id share_type : String) (value : ℚ) : Split :=
  ⟨expense_id, user_id, share_type, round_money value⟩

structure Expense where
  id : String
  group_id : String
  payer_id : String
  amount : ℚ
  description : String
  timestamp : String
  splits : List Split
  deriving DecidableEq

/-- `Expense(...)` followed by `__post_init__` (`self.amount = to_decimal(self.amount)`).
The `timestamp` is an opaque string here. -/
def Expense.make (id group_id payer_id : String) (amount : ℚ)
    (description timestamp : String) (splits : List Split) : Expense :=
  ⟨id, group_id, payer_id, round_money amount, description, timestamp, splits⟩

/-- A payment record, as returned by `storage.load_payments()` (a dict with
keys `id`, `group_id`, `from_user`, `to_user`, `amount`, `timestamp`). -/
structure Payment where
  id : String
  group_id : String
  from_user : String
  to_user : String
  amount : ℚ
  timestamp : String
  deriving DecidableEq

/-! ### Ledger engine (`services/ledger_service.py`) -/

/-- `balances[k] += v` on a `defaultdict(Decimal)`: update the entry in place
if the key is present, append a fresh entry (default 0 + v) otherwise. -/
def bumpBal : List (String × ℚ) → String → ℚ → List (String × ℚ)
  | [], k, v => [(k, v)]
  | (k', v') :: rest, k, v =>
      if k' = k then (k', v' + v) :: rest else (k', v') :: bumpBal rest k v

/-- The per-split owed share inside `calculate_balances`:
percent splits convert the percentage to a dollar amount
(`(expense.amount * split.value) / Decimal('100')`), any other share type
uses the split value as is. -/
def share_amount (expense_amount : ℚ) (s : Split) : ℚ :=
  if s.share_type = "percent" then expense_amount * s.value / 100 else s.value

/-- One expense of the `for expense in group_expenses` loop: credit the payer
with the full amount, then debit every split user by its rounded share. -/
def processExpense (bal : List (String × ℚ)) (e : Expense) : List (String × ℚ) :=
  e.splits.foldl
    (fun b s => bumpBal b s.user_id (-(round_money (share_amount e.amount s))))
    (bumpBal bal e.payer_id e.amount)

/-- One payment of the `for payment in group_payments` loop: credit
`from_user`, debit `to_user`. -/
def processPayment (bal : List (String × ℚ)) (p : Payment) : List (String × ℚ) :=
  bumpBal (bumpBal bal p.from_user p.amount) p.to_user (-p.amount)

/-- `LedgerService.calculate_balances`, with the storage collaborator
abstracted into the `expenses`/`payments` inputs (the service only calls
`load_expenses()`/`load_payments()` and filters by `group_id`). The final
dict comprehension rounds every balance. -/
def calculate_balances (expenses : List Expense) (payments : List Payment)
    (group_id : String) : List (String × ℚ) :=
  let group_expenses := expenses.filter (fun e => e.group_id = group_id)
  let group_payments := payments.filter (fun p => p.group_id = group_id)
  let bal := group_payments.foldl processPayment
    (group_expenses.foldl processExpense [])
  bal.map (fun p => (p.1, round_money p.2))

/-- A raw split dict as passed to `LedgerService.validate_expense_split`
(only the `share_type` and `value` keys are read). -/
structure SplitDict where
  share_type : String
  value : ℚ
  deriving DecidableEq

/-- `LedgerService.validate_expense_split(amount, splits)`. The equal branch
compares each raw split value against the full-precision quotient
`amount / len(splits)`; the exact and percent branches sum `to_decimal` of
each value and compare against the amount resp. `Decimal('100')`. -/
def validate_expense_split : ℚ → List SplitDict → Bool × String
  | _, [] => (false, "No splits provided")
  | amount, s0 :: rest =>
    if s0.share_type = "equal" then
      let expected_share := amount / (s0 :: rest).length
      if (s0 :: rest).all (fun s => s.value = expected_share) then
        (true, "Valid split")
      else
        (false, "Equal split should be $" ++ toString expected_share ++ " each")
    else if s0.share_type = "exact" then
      let total := ((s0 :: rest).map (fun s => round_money s.value)).sum
      if total = amount then (true, "Valid split")
      else
        (false, "Exact splits sum to $" ++ toString total ++ ", but expense is $" ++
          toString amount)
    else if s0.share_type = "percent" then
      let total_percent := ((s0 :: rest).map (fun s => round_money s.value)).sum
      if total_percent = 100 then (true, "Valid split")
      else
        (false, "Percent splits sum to " ++ toString total_percent ++
          "%, should be 100%")
    else
      (false, "Unknown split type: " ++ s0.share_type)

/-! ### Settlement optimizer (`services/settlement_service.py`) -/

/-- A settlement dict produced by `suggest_settlements`. -/
structure Settlement where
  from_user : String
  to_user : String
  amount : ℚ
  description : String
  deriving DecidableEq

/-- The f-string `f"{debtor_user} pays {creditor_user} ${settlement_amount}"`
(decimal formatting abstracted as `toString`). -/
def mkDescription (debtor_user creditor_user : String) (amt : ℚ) : String :=
  debtor_user ++ " pays " ++ creditor_user ++ " $" ++ toString amt

/-- The `while creditor_idx < len(creditor_list) and debtor_idx < len(debtor_list)`
loop of `suggest_settlements`. The two suffixes starting at `creditor_idx` /
`debtor_idx` are the two list arguments (the loop only ever rewrites the
entry at the current index, so advancing an index is dropping the head).
`fuel` counts remaining permitted iterations: the Boolean is `true` when the
loop reached its exit condition within `fuel` iterations and `false` when it
would still be running (on such inputs the Python loop does not terminate
within that many iterations; with zero settled amount it never advances). -/
def settleLoop : ℕ → List (String × ℚ) → List (String × ℚ) →
    List Settlement × Bool
  | _, [], _ => ([], true)
  | _, _ :: _, [] => ([], true)
  | 0, _ :: _, _ :: _ => ([], false)
  | fuel + 1, (cu, ca) :: cs, (du, da) :: ds =>
      let s := round_money (min ca da)
      let next := settleLoop fuel
        (if ca - s ≤ 0 then cs else (cu, ca - s) :: cs)
        (if da - s ≤ 0 then ds else (du, da - s) :: ds)
      ((if 0 < s then [⟨du, cu, s, mkDescription du cu s⟩] else []) ++ next.1,
        next.2)

/-- `SettlementService.suggest_settlements(balances)`. Creditors are entries
with positive balance, debtors carry the absolute value of their negative
balance; both are sorted by amount descending (Python's stable `sorted` with
`reverse=True`). The fuel `len(creditor_list) + len(debtor_list)` bounds the
loop iterations: the Boolean records whether the loop exited within that
bound. -/
def suggest_settlements (balances : List (String × ℚ)) :
    List Settlement × Bool :=
  let creditors := balances.filter (fun p => 0 < p.2)
  let debtors := (balances.filter (fun p => p.2 < 0)).map (fun p => (p.1, |p.2|))
  let creditor_list := creditors.insertionSort (fun a b => b.2 ≤ a.2)
  let debtor_list := debtors.insertionSort (fun a b => b.2 ≤ a.2)
  settleLoop (creditor_list.length + debtor_list.length) creditor_list debtor_list

/-- Total amount of the settlements in `l` paid by member `u`
(`u` as `from_user`). -/
def debitFrom (l : List Settlement) (u : String) : ℚ :=
  ((l.filter (fun s => s.from_user = u)).map Settlement.amount).sum

/-- Total amount of the settlements in `l` received by member `u`
(`u` as `to_user`). -/
def creditTo (l : List Settlement) (u : String) : ℚ :=
  ((l.filter (fun s => s.to_user = u)).map Settlement.amount).sum

/-- Applying settlements in the direction the code's own payment processing
uses (`balances[from_user] += amount; balances[to_user] -= amount`): paying a
debt raises the payer's (negative) balance toward zero. -/
def applySettlements (balances : List (String × ℚ)) (l : List Settlement) :
    List (String × ℚ) :=
  balances.map (fun p => (p.1, p.2 + debitFrom l p.1 - creditTo l p.1))

/-- Applying settlements in the direction the specification's words describe
(subtract the amount from the `from` member's balance and add it to the `to`
member's balance). -/
def applySettlementsAsWritten (balances : List (String × ℚ))
    (l : List Settlement) : List (String × ℚ) :=
  balances.map (fun p => (p.1, p.2 - debitFrom l p.1 + creditTo l p.1))

/-- The stats record built by `calculate_settlement_stats`. -/
structure SettlementStats where
  total_debt : ℚ
  settlement_count : ℕ
  total_settlements : ℚ
  efficiency : ℚ
  deriving DecidableEq

/-- `SettlementService.calculate_settlement_stats(balances, settlements)`.
The efficiency expression is
`len(settlements) / len([b for b in balances.values() if b != 0]) if balances else 0`:
with a non-empty balance map whose values are all zero the divisor is `0` and
Python raises `ZeroDivisionError`, modelled as `none`. -/
def calculate_settlement_stats (balances : List (String × ℚ))
    (settlements : List Settlement) : Option SettlementStats :=
  let total_debt := ((balances.filter (fun p => p.2 < 0)).map (fun p => |p.2|)).sum
  let total_settlements := (settlements.map Settlement.amount).sum
  let nonzero := (balances.filter (fun p => p.2 ≠ 0)).length
  if balances = [] then
    some ⟨total_debt, settlements.length, total_settlements, 0⟩
  else if nonzero = 0 then
    none
  else
    some ⟨total_debt, settlements.length, total_settlements,
      (settlements.length : ℚ) / (nonzero : ℚ)⟩

/-- Sum of the values of a balance map. -/
def sumValues (l : List (String × ℚ)) : ℚ := (l.map Prod.snd).sum

/-- The sum of the rounded shares debited for an expense's splits. -/
def roundedShareSum (e : Expense) : ℚ :=
  (e.splits.map (fun s => round_money (share_amount e.amount s))).sum

/-- A balance map all of whose values are whole numbers of cents. -/
def AllCents (l : List (String × ℚ)) : Prop := ∀ p ∈ l, IsCents p.2

/-- Per-key value sum of an association list (the value at a dict key when
the keys are unique, zero when absent). -/
def keySum (l : List (String × ℚ)) (u : String) : ℚ :=
  ((l.filter (fun p => p.1 = u)).map Prod.snd).sum

/-! ### Concrete instances used by counterexamples and witnesses -/

/-- A percent-split expense whose percentages sum to exactly 100 (so it
passes validation) but whose rounded shares sum to 0.09 against an amount of
0.10: `amount=0.10`, payer `a`, percent splits `b: 33.33`, `c: 33.33`,
`d: 33.34`. -/
def driftExpense : Expense :=
  Expense.make "e1" "g1" "a" (1 / 10) "groceries" "t0"
    [Split.make "e1" "b" "percent" (3333 / 100),
     Split.make "e1" "c" "percent" (3333 / 100),
     Split.make "e1" "d" "percent" (3334 / 100)]

/-- Example 4 of the specification: `amount=100.00`, payer `A`, percent
splits `A: 50`, `B: 30`, `C: 20`. -/
def example4Expense : Expense :=
  Expense.make "e4" "g1" "A" 100 "dinner" "t0"
    [Split.make "e4" "A" "percent" 50,
     Split.make "e4" "B" "percent" 30,
     Split.make "e4" "C" "percent" 20]

/-- An equal-split expense that satisfies the zero-sum side conditions:
`amount=60.00`, payer `a`, equal splits of `20.00` for `a`, `b`, `c`. -/
def witnessExpense : Expense :=
  Expense.make "e2" "g1" "a" 60 "rent" "t1"
    [Split.make "e2" "a" "equal" 20,
     Split.make "e2" "b" "equal" 20,
     Split.make "e2" "c" "equal" 20]

/-- A payment of `5.00` from `b` to `a`. -/
def witnessPayment : Payment := ⟨"p1", "g1", "b", "a", 5, "t2"⟩

/-! ## Theorems -/

/-! ### Money -/

theorem round_money_isCents (q : ℚ) : IsCents (round_money q) :=
  ⟨roundHalfUpCents q, rfl⟩

theorem floor_intCast_add_half (m : ℤ) : ⌊(m : ℚ) + 1 / 2⌋ = m := by
  rw [Int.floor_int_add]
  have : ⌊(1 / 2 : ℚ)⌋ = 0 := by
    rw [Int.floor_eq_zero_iff]
    constructor <;> norm_num
  omega

theorem roundHalfUpCents_cents (n : ℤ) : roundHalfUpCents ((n : ℚ) / 100) = n := by
  unfold roundHalfUpCents
  have hdiv : (n : ℚ) / 100 * 100 = (n : ℚ) := by field_simp
  have hneg : -((n : ℚ) / 100) * 100 = ((-n : ℤ) : ℚ) := by push_cast; field_simp
  by_cases h : (n : ℚ) / 100 < 0
  · rw [if_pos h, hneg, floor_intCast_add_half, neg_neg]
  · rw [if_neg h, hdiv, floor_intCast_add_half]

theorem round_money_eq_self {q : ℚ} (h : IsCents q) : round_money q = q := by
  obtain ⟨n, rfl⟩ := h
  rw [round_money, roundHalfUpCents_cents]

theorem isCents_add {a b : ℚ} (ha : IsCents a) (hb : IsCents b) : IsCents (a + b) := by
  obtain ⟨m, rfl⟩ := ha
  obtain ⟨n, rfl⟩ := hb
  exact ⟨m + n, by push_cast; ring⟩

theorem isCents_neg {a : ℚ} (ha : IsCents a) : IsCents (-a) := by
  obtain ⟨m, rfl⟩ := ha
  exact ⟨-m, by push_cast; ring⟩

theorem isCents_sub {a b : ℚ} (ha : IsCents a) (hb : IsCents b) : IsCents (a - b) := by
  rw [sub_eq_add_neg]; exact isCents_add ha (isCents_neg hb)

theorem isCents_zero : IsCents 0 := ⟨0, by norm_num⟩

theorem isCents_min {a b : ℚ} (ha : IsCents a) (hb : IsCents b) : IsCents (min a b) := by
  rcases min_choice a b with h | h <;> rw [h] <;> assumption

theorem isCents_abs {a : ℚ} (ha : IsCents a) : IsCents |a| := by
  rcases abs_choice a with h | h <;> rw [h]
  · exact ha
  · exact isCents_neg ha

/-! ### Balance-map sums and quantization invariants -/

theorem sumValues_cons (p : String × ℚ) (l : List (String × ℚ)) :
    sumValues (p :: l) = p.2 + sumValues l := by
  simp [sumValues]

theorem sumValues_bumpBal (l : List (String × ℚ)) (k : String) (v : ℚ) :
    sumValues (bumpBal l k v) = sumValues l + v := by
  induction l with
  | nil => simp [bumpBal, sumValues]
  | cons p rest ih =>
      obtain ⟨k', v'⟩ := p
      by_cases h : k' = k
      · simp [bumpBal, h, sumValues_cons]; ring
      · simp [bumpBal, h, sumValues_cons, ih]; ring

theorem sum_map_neg {α : Type} (g : α → ℚ) (l : List α) :
    (l.map (fun s => -(g s))).sum = -((l.map g).sum) := by
  induction l with
  | nil => simp
  | cons a t ih => simp only [List.map_cons, List.sum_cons, ih]; ring

theorem sumValues_foldl_bump {α : Type} (key : α → String) (g : α → ℚ)
    (l : List α) (b0 : List (String × ℚ)) :
    sumValues (l.foldl (fun b s => bumpBal b (key s) (g s)) b0) =
      sumValues b0 + (l.map g).sum := by
  induction l generalizing b0 with
  | nil => simp
  | cons s rest ih =>
      simp only [List.foldl_cons, List.map_cons, List.sum_cons, ih, sumValues_bumpBal]
      ring

theorem sumValues_processExpense (bal : List (String × ℚ)) (e : Expense) :
    sumValues (processExpense bal e) = sumValues bal + e.amount - roundedShareSum e := by
  unfold processExpense roundedShareSum
  rw [sumValues_foldl_bump (fun s => s.user_id)
    (fun s => -(round_money (share_amount e.amount s)))]
  rw [sumValues_bumpBal, sum_map_neg]
  ring

theorem sumValues_processPayment (bal : List (String × ℚ)) (p : Payment) :
    sumValues (processPayment bal p) = sumValues bal := by
  unfold processPayment
  rw [sumValues_bumpBal, sumValues_bumpBal]
  ring

theorem allCents_bumpBal {l : List (String × ℚ)} {k : String} {v : ℚ}
    (hl : AllCents l) (hv : IsCents v) : AllCents (bumpBal l k v) := by
  induction l with
  | nil =>
      intro p hp
      simp only [bumpBal, List.mem_singleton] at hp
      subst hp; exact hv
  | cons q rest ih =>
      obtain ⟨k', v'⟩ := q
      have hrest : AllCents rest := fun p hp => hl p (List.mem_cons_of_mem _ hp)
      have hv' : IsCents v' := hl (k', v') (List.mem_cons_self _ _)
      intro p hp
      by_cases h : k' = k
      · simp only [bumpBal, if_pos h] at hp
        rcases List.mem_cons.1 hp with rfl | hmem
        · exact isCents_add hv' hv
        · exact hrest p hmem
      · simp only [bumpBal, if_neg h] at hp
        rcases List.mem_cons.1 hp with rfl | hmem
        · exact hv'
        · exact ih hrest p hmem

theorem allCents_foldl_bump {α : Type} (key : α → String) (g : α → ℚ)
    {l : List α} {b0 : List (String × ℚ)}
    (hb : AllCents b0) (hg : ∀ s ∈ l, IsCents (g s)) :
    AllCents (l.foldl (fun b s => bumpBal b (key s) (g s)) b0) := by
  induction l generalizing b0 with
  | nil => exact hb
  | cons s rest ih =>
      simp only [List.foldl_cons]
      exact ih (allCents_bumpBal hb (hg s (List.mem_cons_self _ _)))
        (fun t ht => hg t (List.mem_cons_of_mem _ ht))

theorem allCents_processExpense {bal : List (String × ℚ)} {e : Expense}
    (hb : AllCents bal) (ha : IsCents e.amount) : AllCents (processExpense bal e) := by
  unfold processExpense
  exact allCents_foldl_bump (fun s => s.user_id)
    (fun s => -(round_money (share_amount e.amount s)))
    (allCents_bumpBal hb ha)
    (fun s _ => isCents_neg (round_money_isCents _))

theorem allCents_processPayment {bal : List (String × ℚ)} {p : Payment}
    (hb : AllCents bal) (ha : IsCents p.amount) : AllCents (processPayment bal p) := by
  unfold processPayment
  exact allCents_bumpBal (allCents_bumpBal hb ha) (isCents_neg ha)

theorem sumValues_map_round {l : List (String × ℚ)} (hl : AllCents l) :
    sumValues (l.map (fun p => (p.1, round_money p.2))) = sumValues l := by
  induction l with
  | nil => rfl
  | cons p rest ih =>
      have hp : IsCents p.2 := hl p (List.mem_cons_self _ _)
      have hrest : AllCents rest := fun q hq => hl q (List.mem_cons_of_mem _ hq)
      simp only [List.map_cons, sumValues_cons, ih hrest, round_money_eq_self hp]

theorem sumValues_foldl_processExpense (es : List Expense) (b0 : List (String × ℚ))
    (h : ∀ e ∈ es, roundedShareSum e = e.amount) :
    sumValues (es.foldl processExpense b0) = sumValues b0 := by
  induction es generalizing b0 with
  | nil => rfl
  | cons e rest ih =>
      simp only [List.foldl_cons]
      rw [ih _ (fun x hx => h x (List.mem_cons_of_mem _ hx)),
        sumValues_processExpense, h e (List.mem_cons_self _ _)]
      ring

theorem sumValues_foldl_processPayment (ps : List Payment) (b0 : List (String × ℚ)) :
    sumValues (ps.foldl processPayment b0) = sumValues b0 := by
  induction ps generalizing b0 with
  | nil => rfl
  | cons p rest ih =>
      simp only [List.foldl_cons]
      rw [ih, sumValues_processPayment]

theorem allCents_foldl_processExpense {es : List Expense} {b0 : List (String × ℚ)}
    (hb : AllCents b0) (h : ∀ e ∈ es, IsCents e.amount) :
    AllCents (es.foldl processExpense b0) := by
  induction es generalizing b0 with
  | nil => exact hb
  | cons e rest ih =>
      simp only [List.foldl_cons]
      exact ih (allCents_processExpense hb (h e (List.mem_cons_self _ _)))
        (fun x hx => h x (List.mem_cons_of_mem _ hx))

theorem allCents_foldl_processPayment {ps : List Payment} {b0 : List (String × ℚ)}
    (hb : AllCents b0) (h : ∀ p ∈ ps, IsCents p.amount) :
    AllCents (ps.foldl processPayment b0) := by
  induction ps generalizing b0 with
  | nil => exact hb
  | cons p rest ih =>
      simp only [List.foldl_cons]
      exact ih (allCents_processPayment hb (h p (List.mem_cons_self _ _)))
        (fun x hx => h x (List.mem_cons_of_mem _ hx))

theorem allCents_nil : AllCents [] := by
  intro p hp
  cases hp

/-! ### C1: zero-sum of `calculate_balances` -/

/-- C1 (counterexample): the zero-sum invariant fails as stated. The expense
`driftExpense` (amount 0.10, percent splits 33.33 / 33.33 / 33.34) has
percentages summing to exactly 100 — `validate_expense_split` accepts them —
yet `calculate_balances` returns balances summing to 0.01, not 0: the payer
is credited 0.10 while the three rounded shares debit only 0.03 each. -/
theorem percent_rounding_breaks_zero_sum :
    (validate_expense_split (1 / 10)
        [⟨"percent", 3333 / 100⟩, ⟨"percent", 3333 / 100⟩,
         ⟨"percent", 3334 / 100⟩]).1 = true ∧
    sumValues (calculate_balances [driftExpense] [] "g1") = 1 / 100 ∧
    (1 / 100 : ℚ) ≠ 0 := by
  with_unfolding_all decide

/-- C1 (amended): the balances returned by `calculate_balances` sum to zero
for every set of expense and payment records in which each payment amount and
each expense amount is a whole number of cents and, for each expense, the
rounded shares of its splits sum exactly to the expense amount (each expense
then credits the payer exactly what it debits across its splits, and each
payment credits the sender and debits the recipient by equal amounts). -/
theorem calculate_balances_zero_sum (expenses : List Expense)
    (payments : List Payment) (group_id : String)
    (hexp : ∀ e ∈ expenses, IsCents e.amount ∧ roundedShareSum e = e.amount)
    (hpay : ∀ p ∈ payments, IsCents p.amount) :
    sumValues (calculate_balances expenses payments group_id) = 0 := by
  unfold calculate_balances
  have hcents : AllCents
      ((payments.filter (fun p => p.group_id = group_id)).foldl processPayment
        ((expenses.filter (fun e => e.group_id = group_id)).foldl processExpense [])) := by
    apply allCents_foldl_processPayment
    · exact allCents_foldl_processExpense allCents_nil
        (fun e he => (hexp e (List.mem_of_mem_filter he)).1)
    · exact fun p hp => hpay p (List.mem_of_mem_filter hp)
  rw [sumValues_map_round hcents, sumValues_foldl_processPayment,
    sumValues_foldl_processExpense _ _
      (fun e he => (hexp e (List.mem_of_mem_filter he)).2)]
  rfl

/-- C1 (witness): a valid equal-split expense of 60.00 among three members
plus a 5.00 payment; the resulting balances sum to zero. -/
theorem calculate_balances_zero_sum_witness :
    sumValues (calculate_balances [witnessExpense] [witnessPayment] "g1") = 0 := by
  apply calculate_balances_zero_sum
  · intro e he
    rw [List.mem_singleton] at he
    subst he
    exact ⟨round_money_isCents 60, by with_unfolding_all decide⟩
  · intro p hp
    rw [List.mem_singleton] at hp
    subst hp
    exact ⟨500, by norm_num [witnessPayment]⟩

/-! ### C6: Example 4 (percent split) -/

/-- C6: for an expense of amount 100.00 paid by `A` with percent splits
`A: 50`, `B: 30`, `C: 20` and no payments, `calculate_balances` returns
exactly `{A: +50.00, B: -30.00, C: -20.00}`, each share being
`round_money(amount * percentage / 100)`. -/
theorem example4_percent_balances :
    calculate_balances [example4Expense] [] "g1" =
      [("A", 50), ("B", -30), ("C", -20)] := by
  with_unfolding_all decide

/-! ### Settlement loop: termination and accounting -/

theorem creditTo_nil (u : String) : creditTo [] u = 0 := rfl

theorem debitFrom_nil (u : String) : debitFrom [] u = 0 := rfl

theorem creditTo_cons (x : Settlement) (l : List Settlement) (u : String) :
    creditTo (x :: l) u = (if x.to_user = u then x.amount else 0) + creditTo l u := by
  unfold creditTo
  by_cases h : x.to_user = u
  · simp [List.filter_cons, h]
  · simp [List.filter_cons, h]

theorem debitFrom_cons (x : Settlement) (l : List Settlement) (u : String) :
    debitFrom (x :: l) u = (if x.from_user = u then x.amount else 0) + debitFrom l u := by
  unfold debitFrom
  by_cases h : x.from_user = u
  · simp [List.filter_cons, h]
  · simp [List.filter_cons, h]

theorem keySum_nil (u : String) : keySum [] u = 0 := rfl

theorem keySum_cons (k : String) (v : ℚ) (l : List (String × ℚ)) (u : String) :
    keySum ((k, v) :: l) u = (if k = u then v else 0) + keySum l u := by
  unfold keySum
  by_cases h : k = u
  · simp [List.filter_cons, h]
  · simp [List.filter_cons, h]

theorem sumValues_nonneg_of_pos {l : List (String × ℚ)}
    (h : ∀ p ∈ l, 0 < p.2) : 0 ≤ sumValues l := by
  induction l with
  | nil => exact le_refl 0
  | cons p rest ih =>
      rw [sumValues_cons]
      have h1 : 0 < p.2 := h p (List.mem_cons_self _ _)
      have h2 : 0 ≤ sumValues rest :=
        ih (fun q hq => h q (List.mem_cons_of_mem _ hq))
      linarith

theorem eq_nil_of_pos_sum_zero {l : List (String × ℚ)}
    (h : ∀ p ∈ l, 0 < p.2) (hs : sumValues l = 0) : l = [] := by
  cases l with
  | nil => rfl
  | cons p rest =>
      exfalso
      rw [sumValues_cons] at hs
      have h1 : 0 < p.2 := h p (List.mem_cons_self _ _)
      have h2 : 0 ≤ sumValues rest :=
        sumValues_nonneg_of_pos (fun q hq => h q (List.mem_cons_of_mem _ hq))
      linarith

/-- The settled amount of one loop iteration: with both current amounts
positive whole numbers of cents, `round_money(min(...))` is the exact
minimum and is strictly positive. -/
theorem settle_amount_eq_min {ca da : ℚ} (hca : 0 < ca ∧ IsCents ca)
    (hda : 0 < da ∧ IsCents da) :
    round_money (min ca da) = min ca da ∧ 0 < round_money (min ca da) := by
  have hmin : IsCents (min ca da) := isCents_min hca.2 hda.2
  have heq : round_money (min ca da) = min ca da := round_money_eq_self hmin
  refine ⟨heq, ?_⟩
  rw [heq]
  exact lt_min hca.1 hda.1

/-- Unfolding equation for one iteration of the settlement loop. -/
theorem settleLoop_succ_cons (fuel : ℕ) (cu : String) (ca : ℚ)
    (cs : List (String × ℚ)) (du : String) (da : ℚ) (ds : List (String × ℚ)) :
    settleLoop (fuel + 1) ((cu, ca) :: cs) ((du, da) :: ds) =
      ((if 0 < round_money (min ca da) then
          [⟨du, cu, round_money (min ca da),
            mkDescription du cu (round_money (min ca da))⟩] else []) ++
        (settleLoop fuel
          (if ca - round_money (min ca da) ≤ 0 then cs
            else (cu, ca - round_money (min ca da)) :: cs)
          (if da - round_money (min ca da) ≤ 0 then ds
            else (du, da - round_money (min ca da)) :: ds)).1,
        (settleLoop fuel
          (if ca - round_money (min ca da) ≤ 0 then cs
            else (cu, ca - round_money (min ca da)) :: cs)
          (if da - round_money (min ca da) ≤ 0 then ds
            else (du, da - round_money (min ca da)) :: ds)).2) := by
  rw [settleLoop]

/-- The loop exits within `fuel` iterations whenever all current amounts are
positive whole numbers of cents and `fuel` covers both list lengths: every
iteration settles a positive amount and exhausts at least one side. -/
theorem settleLoop_complete :
    ∀ (fuel : ℕ) (c d : List (String × ℚ)),
      (∀ p ∈ c, 0 < p.2 ∧ IsCents p.2) → (∀ p ∈ d, 0 < p.2 ∧ IsCents p.2) →
      c.length + d.length ≤ fuel → (settleLoop fuel c d).2 = true := by
  intro fuel
  induction fuel with
  | zero =>
      intro c d _ _ hlen
      have hc : c = [] := List.eq_nil_of_length_eq_zero (by omega)
      subst hc
      rfl
  | succ fuel ih =>
      intro c d hc hd hlen
      match c, d with
      | [], _ => rfl
      | _ :: _, [] => rfl
      | (cu, ca) :: cs, (du, da) :: ds =>
        have hca := hc (cu, ca) (List.mem_cons_self _ _)
        have hda := hd (du, da) (List.mem_cons_self _ _)
        obtain ⟨heq, hpos⟩ := settle_amount_eq_min hca hda
        have hmin_le_ca : round_money (min ca da) ≤ ca := by
          rw [heq]; exact min_le_left _ _
        have hmin_le_da : round_money (min ca da) ≤ da := by
          rw [heq]; exact min_le_right _ _
        have hone : ca - round_money (min ca da) ≤ 0 ∨
            da - round_money (min ca da) ≤ 0 := by
          rcases min_choice ca da with h | h
          · left
            rw [heq, h]
            simp
          · right
            rw [heq, h]
            simp
        rw [settleLoop_succ_cons]
        simp only [List.length_cons] at hlen
        apply ih
        · intro p hp
          by_cases h : ca - round_money (min ca da) ≤ 0
          · rw [if_pos h] at hp
            exact hc p (List.mem_cons_of_mem _ hp)
          · rw [if_neg h] at hp
            rcases List.mem_cons.1 hp with rfl | hmem
            · exact ⟨by simpa using not_le.1 h,
                isCents_sub hca.2 (round_money_isCents _)⟩
            · exact hc p (List.mem_cons_of_mem _ hmem)
        · intro p hp
          by_cases h : da - round_money (min ca da) ≤ 0
          · rw [if_pos h] at hp
            exact hd p (List.mem_cons_of_mem _ hp)
          · rw [if_neg h] at hp
            rcases List.mem_cons.1 hp with rfl | hmem
            · exact ⟨by simpa using not_le.1 h,
                isCents_sub hda.2 (round_money_isCents _)⟩
            · exact hd p (List.mem_cons_of_mem _ hmem)
        · by_cases h1 : ca - round_money (min ca da) ≤ 0
          · rw [if_pos h1]
            by_cases h2 : da - round_money (min ca da) ≤ 0
            · rw [if_pos h2]
              omega
            · rw [if_neg h2, List.length_cons]
              omega
          · rw [if_neg h1, List.length_cons]
            have h2 : da - round_money (min ca da) ≤ 0 := by
              rcases hone with h | h
              · exact absurd h h1
              · exact h
            rw [if_pos h2]
            omega

/-- One loop iteration leaves the per-key remaining amount plus the emitted
amount unchanged. -/
theorem keySum_step (cu u : String) (ca s : ℚ) (cs : List (String × ℚ))
    (hle : s ≤ ca) :
    (if cu = u then s else 0) +
      keySum (if ca - s ≤ 0 then cs else (cu, ca - s) :: cs) u =
      keySum ((cu, ca) :: cs) u := by
  by_cases h : ca - s ≤ 0
  · have hca : ca = s := le_antisymm (by linarith) hle
    rw [if_pos h, keySum_cons, hca]
  · rw [if_neg h, keySum_cons, keySum_cons]
    by_cases hcu : cu = u
    · simp only [if_pos hcu]; ring
    · simp only [if_neg hcu]; ring

/-- Accounting of the settlement loop: when every current amount is a
positive whole number of cents and the remaining creditor total equals the
remaining debtor total, the loop completes and, for every member, the total
amount directed to the member equals the member's total creditor entry and
the total amount drawn from the member equals the member's total debtor
entry. -/
theorem settleLoop_accounting :
    ∀ (fuel : ℕ) (c d : List (String × ℚ)),
      (∀ p ∈ c, 0 < p.2 ∧ IsCents p.2) → (∀ p ∈ d, 0 < p.2 ∧ IsCents p.2) →
      sumValues c = sumValues d →
      c.length + d.length ≤ fuel →
      ∀ u, creditTo (settleLoop fuel c d).1 u = keySum c u ∧
        debitFrom (settleLoop fuel c d).1 u = keySum d u := by
  intro fuel
  induction fuel with
  | zero =>
      intro c d _ _ _ hlen u
      have hc : c = [] := List.eq_nil_of_length_eq_zero (by omega)
      have hd : d = [] := List.eq_nil_of_length_eq_zero (by omega)
      subst hc
      subst hd
      exact ⟨rfl, rfl⟩
  | succ fuel ih =>
      intro c d hc hd hsum hlen u
      match c, d with
      | [], d =>
        have hdnil : d = [] :=
          eq_nil_of_pos_sum_zero (fun p hp => (hd p hp).1) hsum.symm
        subst hdnil
        exact ⟨rfl, rfl⟩
      | (c0 :: ct), [] =>
        exfalso
        have : c0 :: ct = [] :=
          eq_nil_of_pos_sum_zero (fun p hp => (hc p hp).1) hsum
        exact List.cons_ne_nil _ _ this
      | (cu, ca) :: cs, (du, da) :: ds =>
        have hca := hc (cu, ca) (List.mem_cons_self _ _)
        have hda := hd (du, da) (List.mem_cons_self _ _)
        obtain ⟨heq, hpos⟩ := settle_amount_eq_min hca hda
        have hmin_le_ca : round_money (min ca da) ≤ ca := by
          rw [heq]; exact min_le_left _ _
        have hmin_le_da : round_money (min ca da) ≤ da := by
          rw [heq]; exact min_le_right _ _
        have hone : ca - round_money (min ca da) ≤ 0 ∨
            da - round_money (min ca da) ≤ 0 := by
          rcases min_choice ca da with h | h
          · left
            rw [heq, h]
            simp
          · right
            rw [heq, h]
            simp
        have hcnew : ∀ p ∈ (if ca - round_money (min ca da) ≤ 0 then cs
            else (cu, ca - round_money (min ca da)) :: cs), 0 < p.2 ∧ IsCents p.2 := by
          intro p hp
          by_cases h : ca - round_money (min ca da) ≤ 0
          · rw [if_pos h] at hp
            exact hc p (List.mem_cons_of_mem _ hp)
          · rw [if_neg h] at hp
            rcases List.mem_cons.1 hp with rfl | hmem
            · exact ⟨by simpa using not_le.1 h,
                isCents_sub hca.2 (round_money_isCents _)⟩
            · exact hc p (List.mem_cons_of_mem _ hmem)
        have hdnew : ∀ p ∈ (if da - round_money (min ca da) ≤ 0 then ds
            else (du, da - round_money (min ca da)) :: ds), 0 < p.2 ∧ IsCents p.2 := by
          intro p hp
          by_cases h : da - round_money (min ca da) ≤ 0
          · rw [if_pos h] at hp
            exact hd p (List.mem_cons_of_mem _ hp)
          · rw [if_neg h] at hp
            rcases List.mem_cons.1 hp with rfl | hmem
            · exact ⟨by simpa using not_le.1 h,
                isCents_sub hda.2 (round_money_isCents _)⟩
            · exact hd p (List.mem_cons_of_mem _ hmem)
        have hsc : sumValues (if ca - round_money (min ca da) ≤ 0 then cs
            else (cu, ca - round_money (min ca da)) :: cs) =
            sumValues ((cu, ca) :: cs) - round_money (min ca da) := by
          by_cases h : ca - round_money (min ca da) ≤ 0
          · have hca2 : ca = round_money (min ca da) :=
              le_antisymm (by linarith) hmin_le_ca
            rw [if_pos h, sumValues_cons, ← hca2]
            ring
          · rw [if_neg h, sumValues_cons, sumValues_cons]
            ring
        have hsd : sumValues (if da - round_money (min ca da) ≤ 0 then ds
            else (du, da - round_money (min ca da)) :: ds) =
            sumValues ((du, da) :: ds) - round_money (min ca da) := by
          by_cases h : da - round_money (min ca da) ≤ 0
          · have hda2 : da = round_money (min ca da) :=
              le_antisymm (by linarith) hmin_le_da
            rw [if_pos h, sumValues_cons, ← hda2]
            ring
          · rw [if_neg h, sumValues_cons, sumValues_cons]
            ring
        have hlnew : (if ca - round_money (min ca da) ≤ 0 then cs
            else (cu, ca - round_money (min ca da)) :: cs).length +
            (if da - round_money (min ca da) ≤ 0 then ds
              else (du, da - round_money (min ca da)) :: ds).length ≤ fuel := by
          simp only [List.length_cons] at hlen
          by_cases h1 : ca - round_money (min ca da) ≤ 0
          · rw [if_pos h1]
            by_cases h2 : da - round_money (min ca da) ≤ 0
            · rw [if_pos h2]
              omega
            · rw [if_neg h2, List.length_cons]
              omega
          · rw [if_neg h1, List.length_cons]
            have h2 : da - round_money (min ca da) ≤ 0 := by
              rcases hone with h | h
              · exact absurd h h1
              · exact h
            rw [if_pos h2]
            omega
        have hrest := ih _ _ hcnew hdnew (by rw [hsc, hsd, hsum]) hlnew u
        rw [settleLoop_succ_cons]
        dsimp only
        rw [if_pos hpos, List.singleton_append]
        constructor
        · rw [creditTo_cons]
          dsimp only
          rw [hrest.1]
          exact keySum_step cu u ca (round_money (min ca da)) cs hmin_le_ca
        · rw [debitFrom_cons]
          dsimp only
          rw [hrest.2]
          exact keySum_step du u da (round_money (min ca da)) ds hmin_le_da

/-- Every settlement the loop emits has a strictly positive amount, draws
from a member of the debtor list and pays a member of the creditor list. -/
theorem settleLoop_mem :
    ∀ (fuel : ℕ) (c d : List (String × ℚ)) (x : Settlement),
      x ∈ (settleLoop fuel c d).1 →
      0 < x.amount ∧ x.from_user ∈ d.map Prod.fst ∧
        x.to_user ∈ c.map Prod.fst := by
  intro fuel
  induction fuel with
  | zero =>
      intro c d x hx
      match c, d with
      | [], _ => exact absurd hx (List.not_mem_nil x)
      | _ :: _, [] => exact absurd hx (List.not_mem_nil x)
      | _ :: _, _ :: _ => exact absurd hx (List.not_mem_nil x)
  | succ fuel ih =>
      intro c d x hx
      match c, d with
      | [], _ => exact absurd hx (List.not_mem_nil x)
      | _ :: _, [] => exact absurd hx (List.not_mem_nil x)
      | (cu, ca) :: cs, (du, da) :: ds =>
        rw [settleLoop_succ_cons] at hx
        dsimp only at hx
        rcases List.mem_append.1 hx with hemit | hrec
        · by_cases h : 0 < round_money (min ca da)
          · rw [if_pos h] at hemit
            have hx2 := List.mem_singleton.1 hemit
            subst hx2
            refine ⟨h, ?_, ?_⟩
            · rw [List.map_cons]
              exact List.mem_cons_self _ _
            · rw [List.map_cons]
              exact List.mem_cons_self _ _
          · rw [if_neg h] at hemit
            exact absurd hemit (List.not_mem_nil x)
        · have hres := ih _ _ x hrec
          refine ⟨hres.1, ?_, ?_⟩
          · rw [List.map_cons]
            by_cases h : da - round_money (min ca da) ≤ 0
            · rw [if_pos h] at hres
              exact List.mem_cons_of_mem _ hres.2.1
            · rw [if_neg h, List.map_cons] at hres
              exact hres.2.1
          · rw [List.map_cons]
            by_cases h : ca - round_money (min ca da) ≤ 0
            · rw [if_pos h] at hres
              exact List.mem_cons_of_mem _ hres.2.2
            · rw [if_neg h, List.map_cons] at hres
              exact hres.2.2

theorem keySum_eq_zero_of_not_mem {l : List (String × ℚ)} {u : String}
    (h : u ∉ l.map Prod.fst) : keySum l u = 0 := by
  induction l with
  | nil => rfl
  | cons p rest ih =>
      obtain ⟨k, v⟩ := p
      rw [List.map_cons] at h
      have hk : k ≠ u := fun he => h (he ▸ List.mem_cons_self _ _)
      have hr : u ∉ rest.map Prod.fst := fun he => h (List.mem_cons_of_mem _ he)
      rw [keySum_cons, if_neg hk, ih hr, zero_add]

theorem mem_keys_of_mem_filter_keys {bal : List (String × ℚ)}
    (P : String × ℚ → Bool) {u : String}
    (h : u ∈ (bal.filter P).map Prod.fst) : u ∈ bal.map Prod.fst := by
  rcases List.mem_map.1 h with ⟨p, hp, rfl⟩
  exact List.mem_map_of_mem _ (List.mem_of_mem_filter hp)

/-- In an association list with unique keys, the value at a key is unique. -/
theorem val_eq_of_nodup_keys {bal : List (String × ℚ)}
    (hnd : (bal.map Prod.fst).Nodup) {u : String} {b1 b2 : ℚ}
    (h1 : (u, b1) ∈ bal) (h2 : (u, b2) ∈ bal) : b1 = b2 := by
  induction bal with
  | nil => cases h1
  | cons p rest ih =>
      obtain ⟨k, v⟩ := p
      rw [List.map_cons, List.nodup_cons] at hnd
      rcases List.mem_cons.1 h1 with he1 | hm1 <;>
        rcases List.mem_cons.1 h2 with he2 | hm2
      · rw [Prod.mk.injEq] at he1 he2
        rw [he1.2, he2.2]
      · exfalso
        rw [Prod.mk.injEq] at he1
        apply hnd.1
        dsimp only
        rw [← he1.1]
        exact List.mem_map.2 ⟨(u, b2), hm2, rfl⟩
      · exfalso
        rw [Prod.mk.injEq] at he2
        apply hnd.1
        dsimp only
        rw [← he2.1]
        exact List.mem_map.2 ⟨(u, b1), hm1, rfl⟩
      · exact ih hnd.2 hm1 hm2

/-- Per-key total of the creditor dict: the member's balance when positive,
zero otherwise (unique keys). -/
theorem keySum_creditors {bal : List (String × ℚ)}
    (hnd : (bal.map Prod.fst).Nodup) {u : String} {b : ℚ} (hmem : (u, b) ∈ bal) :
    keySum (bal.filter (fun p => 0 < p.2)) u = if 0 < b then b else 0 := by
  induction bal with
  | nil => cases hmem
  | cons p rest ih =>
      obtain ⟨k, v⟩ := p
      rw [List.map_cons, List.nodup_cons] at hnd
      rcases List.mem_cons.1 hmem with he | hm
      · rw [Prod.mk.injEq] at he
        obtain ⟨rfl, rfl⟩ := he
        have hzero : keySum (rest.filter (fun p => 0 < p.2)) u = 0 :=
          keySum_eq_zero_of_not_mem
            (fun hmm => hnd.1 (mem_keys_of_mem_filter_keys _ hmm))
        by_cases h : 0 < b
        · rw [List.filter_cons_of_pos (by simpa using h), keySum_cons,
            if_pos rfl, hzero, if_pos h, add_zero]
        · rw [List.filter_cons_of_neg (by simpa using h), hzero, if_neg h]
      · have hk : k ≠ u := by
          intro he
          apply hnd.1
          dsimp only
          rw [he]
          exact List.mem_map.2 ⟨(u, b), hm, rfl⟩
        by_cases h : 0 < v
        · rw [List.filter_cons_of_pos (by simpa using h), keySum_cons,
            if_neg hk, zero_add]
          exact ih hnd.2 hm
        · rw [List.filter_cons_of_neg (by simpa using h)]
          exact ih hnd.2 hm

/-- Per-key total of the debtor dict (absolute values of negative balances):
the negated balance when negative, zero otherwise (unique keys). -/
theorem keySum_debtors {bal : List (String × ℚ)}
    (hnd : (bal.map Prod.fst).Nodup) {u : String} {b : ℚ} (hmem : (u, b) ∈ bal) :
    keySum ((bal.filter (fun p => p.2 < 0)).map (fun p => (p.1, |p.2|))) u =
      if b < 0 then -b else 0 := by
  induction bal with
  | nil => cases hmem
  | cons p rest ih =>
      obtain ⟨k, v⟩ := p
      rw [List.map_cons, List.nodup_cons] at hnd
      rcases List.mem_cons.1 hmem with he | hm
      · rw [Prod.mk.injEq] at he
        obtain ⟨rfl, rfl⟩ := he
        have hnm : u ∉ ((rest.filter (fun p => p.2 < 0)).map
            (fun p => (p.1, |p.2|))).map Prod.fst := by
          intro hmm
          apply hnd.1
          rcases List.mem_map.1 hmm with ⟨q, hq, rfl⟩
          rcases List.mem_map.1 hq with ⟨r, hr, rfl⟩
          exact List.mem_map.2 ⟨r, List.mem_of_mem_filter hr, rfl⟩
        have hzero := keySum_eq_zero_of_not_mem hnm
        by_cases h : b < 0
        · rw [List.filter_cons_of_pos (by simpa using h), List.map_cons,
            keySum_cons]
          dsimp only
          rw [if_pos rfl, hzero, if_pos h, add_zero, abs_of_neg h]
        · rw [List.filter_cons_of_neg (by simpa using h), hzero, if_neg h]
      · have hk : k ≠ u := by
          intro he
          apply hnd.1
          dsimp only
          rw [he]
          exact List.mem_map.2 ⟨(u, b), hm, rfl⟩
        by_cases h : v < 0
        · rw [List.filter_cons_of_pos (by simpa using h), List.map_cons,
            keySum_cons]
          dsimp only
          rw [if_neg hk, zero_add]
          exact ih hnd.2 hm
        · rw [List.filter_cons_of_neg (by simpa using h)]
          exact ih hnd.2 hm

/-- The creditor total minus the debtor total is the total of all balances
(zero balances fall in neither bucket). -/
theorem sum_pos_sub_neg (bal : List (String × ℚ)) :
    sumValues (bal.filter (fun p => 0 < p.2)) -
      sumValues ((bal.filter (fun p => p.2 < 0)).map (fun p => (p.1, |p.2|))) =
      sumValues bal := by
  induction bal with
  | nil => simp [sumValues]
  | cons p rest ih =>
      obtain ⟨k, v⟩ := p
      rcases lt_trichotomy v 0 with h | h | h
      · rw [List.filter_cons_of_neg (by simpa using not_lt.2 h.le),
          List.filter_cons_of_pos (by simpa using h), List.map_cons,
          sumValues_cons, sumValues_cons]
        dsimp only
        rw [abs_of_neg h]
        linarith
      · subst h
        rw [List.filter_cons_of_neg (by simp), List.filter_cons_of_neg (by simp),
          sumValues_cons]
        dsimp only
        rw [ih]
        ring
      · rw [List.filter_cons_of_pos (by simpa using h),
          List.filter_cons_of_neg (by simpa using not_lt.2 h.le),
          sumValues_cons, sumValues_cons]
        dsimp only
        linarith

/-- `suggest_settlements` unfolded: the loop is run on the descending-sorted
creditor and debtor lists with fuel equal to their combined length. -/
theorem suggest_settlements_def (balances : List (String × ℚ)) :
    suggest_settlements balances =
      settleLoop
        (((balances.filter (fun p => 0 < p.2)).insertionSort
            (fun a b => b.2 ≤ a.2)).length +
          (((balances.filter (fun p => p.2 < 0)).map
              (fun p => (p.1, |p.2|))).insertionSort
            (fun a b => b.2 ≤ a.2)).length)
        ((balances.filter (fun p => 0 < p.2)).insertionSort
          (fun a b => b.2 ≤ a.2))
        (((balances.filter (fun p => p.2 < 0)).map
            (fun p => (p.1, |p.2|))).insertionSort
          (fun a b => b.2 ≤ a.2)) := rfl

theorem keySum_perm {l1 l2 : List (String × ℚ)} (h : l1.Perm l2) (u : String) :
    keySum l1 u = keySum l2 u := by
  unfold keySum
  exact ((h.filter _).map Prod.snd).sum_eq

/-- Entries of the sorted creditor list are positive (and stay cents when the
balance map is in cents). -/
theorem creditor_list_pos {balances : List (String × ℚ)}
    (hq : ∀ p ∈ balances, IsCents p.2) :
    ∀ p ∈ (balances.filter (fun p => 0 < p.2)).insertionSort
        (fun a b => b.2 ≤ a.2), 0 < p.2 ∧ IsCents p.2 := by
  intro p hp
  have hp2 := (List.perm_insertionSort (fun (a b : String × ℚ) => b.2 ≤ a.2)
    (balances.filter (fun p => 0 < p.2))).subset hp
  exact ⟨by simpa using List.of_mem_filter hp2,
    hq p (List.mem_of_mem_filter hp2)⟩

/-- Entries of the sorted debtor list are positive (and stay cents when the
balance map is in cents). -/
theorem debtor_list_pos {balances : List (String × ℚ)}
    (hq : ∀ p ∈ balances, IsCents p.2) :
    ∀ p ∈ ((balances.filter (fun p => p.2 < 0)).map
        (fun p => (p.1, |p.2|))).insertionSort
        (fun a b => b.2 ≤ a.2), 0 < p.2 ∧ IsCents p.2 := by
  intro p hp
  have hp2 := (List.perm_insertionSort (fun (a b : String × ℚ) => b.2 ≤ a.2)
    ((balances.filter (fun p => p.2 < 0)).map (fun p => (p.1, |p.2|)))).subset hp
  rcases List.mem_map.1 hp2 with ⟨q, hq2, rfl⟩
  have hneg : q.2 < 0 := by simpa using List.of_mem_filter hq2
  constructor
  · dsimp only
    exact abs_pos.2 (ne_of_lt hneg)
  · dsimp only
    exact isCents_abs (hq q (List.mem_of_mem_filter hq2))

/-! ### C3: termination of the settlement loop -/

/-- C3: for every balance map whose values are Money amounts quantized to
exactly 2 fractional digits, the `suggest_settlements` while loop reaches its
exit condition within `len(creditors) + len(debtors)` iterations (that sum is
exactly the fuel `suggest_settlements` runs the loop with): each iteration's
settled amount is strictly positive and exhausts at least one side. -/
theorem suggest_settlements_terminates (balances : List (String × ℚ))
    (h : ∀ p ∈ balances, IsCents p.2) :
    (suggest_settlements balances).2 = true := by
  rw [suggest_settlements_def]
  exact settleLoop_complete _ _ _ (creditor_list_pos h) (debtor_list_pos h)
    (le_refl _)

/-- C3 (witness): the loop exits within fuel on the two-member map
`{a: 20.00, b: -20.00}`. -/
theorem suggest_settlements_terminates_witness :
    (suggest_settlements [("a", 20), ("b", -20)]).2 = true := by
  apply suggest_settlements_terminates
  intro p hp
  rcases List.mem_cons.1 hp with rfl | hp2
  · exact ⟨2000, by norm_num⟩
  rcases List.mem_cons.1 hp2 with rfl | hp3
  · exact ⟨-2000, by norm_num⟩
  · cases hp3

/-! ### C2: settlement correctness -/

/-- C2 (counterexample): applying the settlements the way the claim words it
— subtracting each settlement's amount from the `from` member's balance and
adding it to the `to` member's balance — does not zero the balances: on
`{a: +20.00, b: -20.00}` (which sums to zero) it yields
`{a: +40.00, b: -40.00}`. -/
theorem settlements_as_written_do_not_zero :
    applySettlementsAsWritten [("a", 20), ("b", -20)]
        (suggest_settlements [("a", 20), ("b", -20)]).1 =
      [("a", 40), ("b", -40)] ∧ ((40 : ℚ) ≠ 0 ∧ (-40 : ℚ) ≠ 0) := by
  with_unfolding_all decide

/-- C2 (amended): for every balance map with unique member ids whose values
are Money amounts (whole numbers of cents) summing to exactly zero, applying
all settlements emitted by `suggest_settlements` in the direction the code's
own payment processing uses — adding each settlement's amount to the `from`
member's balance and subtracting it from the `to` member's balance — drives
every member's balance to exactly 0. -/
theorem suggest_settlements_settle_all (balances : List (String × ℚ))
    (hnd : (balances.map Prod.fst).Nodup)
    (hq : ∀ p ∈ balances, IsCents p.2)
    (hsum : sumValues balances = 0) :
    ∀ u b, (u, b) ∈ balances →
      b + debitFrom (suggest_settlements balances).1 u -
        creditTo (suggest_settlements balances).1 u = 0 := by
  intro u b hmem
  rw [suggest_settlements_def]
  have hpermc := List.perm_insertionSort (fun (a b : String × ℚ) => b.2 ≤ a.2)
    (balances.filter (fun p => 0 < p.2))
  have hpermd := List.perm_insertionSort (fun (a b : String × ℚ) => b.2 ≤ a.2)
    ((balances.filter (fun p => p.2 < 0)).map (fun p => (p.1, |p.2|)))
  have hsums : sumValues ((balances.filter (fun p => 0 < p.2)).insertionSort
        (fun a b => b.2 ≤ a.2)) =
      sumValues (((balances.filter (fun p => p.2 < 0)).map
        (fun p => (p.1, |p.2|))).insertionSort (fun a b => b.2 ≤ a.2)) := by
    have h1 : sumValues ((balances.filter (fun p => 0 < p.2)).insertionSort
        (fun a b => b.2 ≤ a.2)) = sumValues (balances.filter (fun p => 0 < p.2)) :=
      (hpermc.map Prod.snd).sum_eq
    have h2 : sumValues (((balances.filter (fun p => p.2 < 0)).map
        (fun p => (p.1, |p.2|))).insertionSort (fun a b => b.2 ≤ a.2)) =
        sumValues ((balances.filter (fun p => p.2 < 0)).map
          (fun p => (p.1, |p.2|))) :=
      (hpermd.map Prod.snd).sum_eq
    have h3 := sum_pos_sub_neg balances
    rw [h1, h2]
    linarith
  have acc := settleLoop_accounting _ _ _ (creditor_list_pos hq)
    (debtor_list_pos hq) hsums (le_refl _) u
  rw [acc.1, acc.2, keySum_perm hpermc u, keySum_perm hpermd u,
    keySum_creditors hnd hmem, keySum_debtors hnd hmem]
  rcases lt_trichotomy b 0 with h | h | h
  · rw [if_pos h, if_neg (by linarith)]
    ring
  · subst h
    norm_num
  · rw [if_neg (by linarith), if_pos h]
    ring

/-- C2 (witness): on `{a: +20.00, b: -20.00}` the emitted settlements bring
member `a`'s balance to exactly 0. -/
theorem suggest_settlements_settle_all_witness :
    (20 : ℚ) + debitFrom (suggest_settlements [("a", 20), ("b", -20)]).1 "a" -
      creditTo (suggest_settlements [("a", 20), ("b", -20)]).1 "a" = 0 := by
  apply suggest_settlements_settle_all [("a", 20), ("b", -20)]
    (by with_unfolding_all decide)
  · intro p hp
    rcases List.mem_cons.1 hp with rfl | hp2
    · exact ⟨2000, by norm_num⟩
    rcases List.mem_cons.1 hp2 with rfl | hp3
    · exact ⟨-2000, by norm_num⟩
    · cases hp3
  · with_unfolding_all decide
  · with_unfolding_all decide

/-! ### C4: settlement well-formedness -/

/-- C4: for any balance map (unique member ids, as in a Python dict), every
settlement returned by `suggest_settlements` has a strictly positive amount
and distinct `from_user` and `to_user`, and no member id appears both as a
`from_user` and as a `to_user` across the returned list. -/
theorem suggest_settlements_wellformed (balances : List (String × ℚ))
    (hnd : (balances.map Prod.fst).Nodup) :
    ∀ s ∈ (suggest_settlements balances).1,
      0 < s.amount ∧ s.from_user ≠ s.to_user ∧
        ∀ t ∈ (suggest_settlements balances).1, s.from_user ≠ t.to_user := by
  have hkey : ∀ s ∈ (suggest_settlements balances).1,
      0 < s.amount ∧ (∃ bf, (s.from_user, bf) ∈ balances ∧ bf < 0) ∧
        (∃ bt, (s.to_user, bt) ∈ balances ∧ 0 < bt) := by
    intro s hs
    rw [suggest_settlements_def] at hs
    have hm := settleLoop_mem _ _ _ s hs
    have hpermc := List.perm_insertionSort (fun (a b : String × ℚ) => b.2 ≤ a.2)
      (balances.filter (fun p => 0 < p.2))
    have hpermd := List.perm_insertionSort (fun (a b : String × ℚ) => b.2 ≤ a.2)
      ((balances.filter (fun p => p.2 < 0)).map (fun p => (p.1, |p.2|)))
    refine ⟨hm.1, ?_, ?_⟩
    · have h1 := (hpermd.map Prod.fst).mem_iff.1 hm.2.1
      rcases List.mem_map.1 h1 with ⟨q, hq, heq⟩
      rcases List.mem_map.1 hq with ⟨r, hr, rfl⟩
      rw [← heq]
      refine ⟨r.2, ?_, by simpa using List.of_mem_filter hr⟩
      dsimp only
      rw [Prod.mk.eta]
      exact List.mem_of_mem_filter hr
    · have h1 := (hpermc.map Prod.fst).mem_iff.1 hm.2.2
      rcases List.mem_map.1 h1 with ⟨q, hq, heq⟩
      rw [← heq]
      refine ⟨q.2, ?_, by simpa using List.of_mem_filter hq⟩
      rw [Prod.mk.eta]
      exact List.mem_of_mem_filter hq
  intro s hs
  obtain ⟨hpos, ⟨bf, hbf, hbfneg⟩, ⟨bt, hbt, hbtpos⟩⟩ := hkey s hs
  have hcross : ∀ t ∈ (suggest_settlements balances).1, s.from_user ≠ t.to_user := by
    intro t ht he
    obtain ⟨_, _, ⟨bt', hbt', hbt'pos⟩⟩ := hkey t ht
    rw [he] at hbf
    have := val_eq_of_nodup_keys hnd hbf hbt'
    linarith
  exact ⟨hpos, hcross s hs, hcross⟩

/-- C4 (witness): on `{a: +20.00, b: -20.00}` the emitted settlement
`b pays a 20.00` has positive amount and distinct members. -/
theorem suggest_settlements_wellformed_witness :
    0 < (Settlement.mk "b" "a" 20 (mkDescription "b" "a" 20)).amount ∧
      (Settlement.mk "b" "a" 20 (mkDescription "b" "a" 20)).from_user ≠
        (Settlement.mk "b" "a" 20 (mkDescription "b" "a" 20)).to_user := by
  have h := suggest_settlements_wellformed [("a", 20), ("b", -20)]
    (by with_unfolding_all decide)
    (Settlement.mk "b" "a" 20 (mkDescription "b" "a" 20))
    (by with_unfolding_all decide)
  exact ⟨h.1, h.2.1⟩

/-! ### C5: settlement stats -/

/-- C5 (code evaluated at the failing input): on the non-empty all-zero
balance map `{user1: 0.00}` with no settlements, `calculate_settlement_stats`
divides by the number of non-zero balances, which is zero — Python raises
`ZeroDivisionError` (modelled as `none`) instead of returning a stats
record. -/
theorem settlement_stats_div_by_zero :
    calculate_settlement_stats [("user1", 0)] [] = none := by
  with_unfolding_all decide

/-! ### C7: percent-split validation is exact -/

/-- C7: on a non-empty list of percent splits with 2-decimal values,
`validate_expense_split` returns true exactly when the percentage values sum
to exactly 100 — no tolerance — and otherwise returns false together with the
human-readable reason string. -/
theorem validate_percent_exact_iff (amount : ℚ) (splits : List SplitDict)
    (hne : splits ≠ [])
    (hall : ∀ s ∈ splits, s.share_type = "percent")
    (hq : ∀ s ∈ splits, IsCents s.value) :
    ((validate_expense_split amount splits).1 = true ↔
      (splits.map SplitDict.value).sum = 100) ∧
    ((splits.map SplitDict.value).sum ≠ 100 →
      validate_expense_split amount splits =
        (false, "Percent splits sum to " ++
          toString ((splits.map SplitDict.value).sum) ++ "%, should be 100%")) := by
  match splits with
  | [] => exact absurd rfl hne
  | s0 :: rest =>
    have h0 : s0.share_type = "percent" := hall s0 (List.mem_cons_self _ _)
    have hmap : ((s0 :: rest).map (fun s => round_money s.value)).sum =
        ((s0 :: rest).map SplitDict.value).sum := by
      rw [List.map_congr_left (fun s hs => round_money_eq_self (hq s hs))]
    rw [validate_expense_split]
    rw [if_neg (by rw [h0]; decide), if_neg (by rw [h0]; decide), if_pos h0]
    dsimp only
    rw [hmap]
    by_cases h : ((s0 :: rest).map SplitDict.value).sum = 100
    · rw [if_pos h]
      exact ⟨⟨fun _ => h, fun _ => rfl⟩, fun habs => absurd h habs⟩
    · rw [if_neg h]
      exact ⟨⟨fun habs => absurd habs (by simp), fun hsum => absurd hsum h⟩,
        fun _ => rfl⟩

/-- C7 (witness): percent splits 60 and 40 sum to exactly 100 and validate as
true. -/
theorem validate_percent_exact_iff_witness :
    (validate_expense_split 50 [⟨"percent", 60⟩, ⟨"percent", 40⟩]).1 = true := by
  refine ((validate_percent_exact_iff 50 [⟨"percent", 60⟩, ⟨"percent", 40⟩]
    ?_ ?_ ?_).1).mpr ?_
  · intro habs
    cases habs
  · intro s hs
    rcases List.mem_cons.1 hs with rfl | hs2
    · rfl
    rcases List.mem_cons.1 hs2 with rfl | hs3
    · rfl
    · cases hs3
  · intro s hs
    rcases List.mem_cons.1 hs with rfl | hs2
    · exact ⟨6000, by norm_num⟩
    rcases List.mem_cons.1 hs2 with rfl | hs3
    · exact ⟨4000, by norm_num⟩
    · cases hs3
  · with_unfolding_all decide

/-! ### C8: Money parsing raises rather than coerces -/

/-- C8: when the input cannot be parsed as a number, `to_decimal` fails with
the invalid-amount error, which propagates to the caller; it never returns
zero or any other value for unparseable input (`to_decimal` has no exception
handler and no fallback branch). -/
theorem to_decimal_unparseable_raises (s : String)
    (h : parseNumber s = none) :
    to_decimal_of_string s = Except.error MoneyError.invalidAmount ∧
      ∀ q : ℚ, to_decimal_of_string s ≠ Except.ok q := by
  unfold to_decimal_of_string
  rw [h]
  exact ⟨rfl, fun q hq => Except.noConfusion hq⟩

/-- C8 (witness): the non-numeric string `"abc"` is rejected with the error
and in particular is not coerced to zero. -/
theorem to_decimal_unparseable_raises_witness :
    to_decimal_of_string "abc" = Except.error MoneyError.invalidAmount ∧
      to_decimal_of_string "abc" ≠ Except.ok 0 := by
  have h := to_decimal_unparseable_raises "abc" (by with_unfolding_all decide)
  exact ⟨h.1, h.2 0⟩

/-! ### C10: equal-split validation compares against the raw quotient -/

/-- C10: the equal branch of `validate_expense_split` compares each raw split
value for exact equality against the full-precision quotient
`amount / len(splits)`; whenever that quotient is not a 2-decimal value, the
validator returns false for every list of 2-decimal split values. -/
theorem validate_equal_exact_quotient_false (amount : ℚ)
    (splits : List SplitDict) (hne : splits ≠ [])
    (hall : ∀ s ∈ splits, s.share_type = "equal")
    (hq : ∀ s ∈ splits, IsCents s.value)
    (hquot : ¬ IsCents (amount / (splits.length : ℚ))) :
    (validate_expense_split amount splits).1 = false := by
  match splits with
  | [] => exact absurd rfl hne
  | s0 :: rest =>
    have h0 : s0.share_type = "equal" := hall s0 (List.mem_cons_self _ _)
    rw [validate_expense_split]
    rw [if_pos h0]
    dsimp only
    have hne2 : ¬ (s0.value = amount / (((s0 :: rest).length : ℕ) : ℚ)) := by
      intro he
      apply hquot
      rw [← he]
      exact hq s0 (List.mem_cons_self _ _)
    rw [if_neg (fun hcond => hne2 (by
      have := List.all_eq_true.1 hcond s0 (List.mem_cons_self _ _)
      simpa using this))]

/-- C10 (witness): 100.00 split equally among 3 members has the
infinite-precision quotient 100/3, so the three 2-decimal values 33.33 are
rejected. -/
theorem validate_equal_exact_quotient_false_witness :
    (validate_expense_split 100
      [⟨"equal", 3333 / 100⟩, ⟨"equal", 3333 / 100⟩,
       ⟨"equal", 3333 / 100⟩]).1 = false := by
  apply validate_equal_exact_quotient_false
  · intro habs
    cases habs
  · intro s hs
    rcases List.mem_cons.1 hs with rfl | hs2
    · rfl
    rcases List.mem_cons.1 hs2 with rfl | hs3
    · rfl
    rcases List.mem_cons.1 hs3 with rfl | hs4
    · rfl
    · cases hs4
  · intro s hs
    rcases List.mem_cons.1 hs with rfl | hs2
    · exact ⟨3333, by norm_num⟩
    rcases List.mem_cons.1 hs2 with rfl | hs3
    · exact ⟨3333, by norm_num⟩
    rcases List.mem_cons.1 hs3 with rfl | hs4
    · exact ⟨3333, by norm_num⟩
    · cases hs4
  · intro hcents
    obtain ⟨n, hn⟩ := hcents
    have hlen : (([⟨"equal", 3333 / 100⟩, ⟨"equal", 3333 / 100⟩,
        ⟨"equal", (3333 : ℚ) / 100⟩] : List SplitDict).length : ℚ) = 3 := by
      norm_num
    rw [hlen] at hn
    rw [div_eq_div_iff (by norm_num) (by norm_num)] at hn
    have hint : (10000 : ℤ) = n * 3 := by exact_mod_cast hn
    omega

/-! ### C9: idempotence of rounding -/

/-- C9: quantizing is idempotent — applying `to_decimal`'s rounding to an
already 2-digit-quantized value leaves it unchanged, so
`round_money (round_money x) = round_money x` for every numeric input `x`. -/
theorem round_money_idempotent (q : ℚ) :
    round_money (round_money q) = round_money q :=
  round_money_eq_self (round_money_isCents q)

end CashMates
